import Mathlib

/-!
Shallow embedding of `src/FFNN/Decoder.py` (greedy and beam-search decoders
of the feed-forward neural language model).

Modelling conventions:
* token ids are `Nat`; scores (log-probabilities) are `ℚ`;
* the scoring model (`model.forward` followed by `torch.topk`) is an abstract
  `Model` with a vocabulary size `V` and a per-token score function; `topk`
  sorts tokens by descending score (ties by lowest id, a fixed tie-break) and
  takes the first `k`;
* Python's dict `n_h` is an insertion-ordered association list; `dictSet`
  overwrites in place or appends a fresh key at the end, exactly like a dict;
* Python's stable `sorted(..., reverse=True)[:K]` is `List.insertionSort`
  with the total preorder "greater-or-equal score" followed by `take K`
  (insertion sort from the right is stable for this preorder);
* fallible indexing (`list(...)[0]` on a possibly empty list) is totalized
  with `Option`.
-/

namespace FFNN

/-- Python slice `l[a:b]` on a list of token ids. -/
def pySlice (a b : Nat) (l : List Nat) : List Nat :=
  (l.drop a).take (b - a)

/-- Abstract scoring model: `score inputSeq contextWindow token` is the score
the model assigns to `token` given the fixed input sequence and the context
window; `V` is the vocabulary size (scores are produced for ids `0..V-1`). -/
structure Model where
  V : Nat
  score : List Nat → List Nat → Nat → ℚ

/-- Ordering used by `torch.topk`: higher score first, ties by lower id. -/
def scoreOrd (a b : Nat × ℚ) : Prop :=
  b.2 < a.2 ∨ (a.2 = b.2 ∧ a.1 ≤ b.1)

instance : DecidableRel scoreOrd := fun a b =>
  inferInstanceAs (Decidable (b.2 < a.2 ∨ (a.2 = b.2 ∧ a.1 ≤ b.1)))

instance : IsTotal (Nat × ℚ) scoreOrd := by
  constructor
  intro a b
  rcases lt_trichotomy a.2 b.2 with h | h | h
  · exact Or.inr (Or.inl h)
  · rcases Nat.le_total a.1 b.1 with h' | h'
    · exact Or.inl (Or.inr ⟨h, h'⟩)
    · exact Or.inr (Or.inr ⟨h.symm, h'⟩)
  · exact Or.inl (Or.inl h)

instance : IsTrans (Nat × ℚ) scoreOrd := by
  constructor
  intro a b c hab hbc
  rcases hab with hab | ⟨hab, hab'⟩
  · rcases hbc with hbc | ⟨hbc, _⟩
    · exact Or.inl (hbc.trans hab)
    · exact Or.inl (hbc ▸ hab)
  · rcases hbc with hbc | ⟨hbc, hbc'⟩
    · exact Or.inl (hab ▸ hbc)
    · exact Or.inr ⟨hab.trans hbc, hab'.trans hbc'⟩

/-- `torch.topk(scores, k)` over the score vector for vocabulary `0..V-1`,
returned as `(token, score)` pairs, best first. -/
def topk (m : Model) (seq ctx : List Nat) (k : Nat) : List (Nat × ℚ) :=
  (List.insertionSort scoreOrd
    ((List.range m.V).map (fun t => (t, m.score seq ctx t)))).take k

/-! ### Greedy decoder -/

/-- Configuration state of `Greedy_Decoder` (`word2idx`/`idx2word` are the
injected vocabulary index, totalized as plain functions). -/
structure Greedy_Decoder where
  word2idx : String → Nat
  idx2word : Nat → String
  C : Nat
  length : Nat

/-- `Greedy_Decoder.__init__` / `Decoder.__init__`: stores the configuration
exactly as given (the source performs no validation of any parameter). -/
def Greedy_Decoder.init (w2i : String → Nat) (i2w : Nat → String)
    (context_size len : Nat) : Greedy_Decoder :=
  ⟨w2i, i2w, context_size, len⟩

/-- `Greedy_Decoder.find_next_word`: scores the last `C` ids before position
`i` and appends the arg-max token (`index[0][0]` of `topk(scores, 2)`).
`none` models the `IndexError` when the vocabulary is empty. -/
def Greedy_Decoder.find_next_word (d : Greedy_Decoder) (summary : List Nat)
    (i : Nat) (m : Model) (seq : List Nat) : Option (List Nat) :=
  match topk m seq (pySlice (i - d.C) i summary) 2 with
  | [] => none
  | tp :: _ => some (summary ++ [tp.1])

/-- The `for i in range(C, length+C-1)` loop of `Greedy_Decoder.decode`,
with the early `break` once the end tag is in the summary. -/
def Greedy_Decoder.decodeLoop (d : Greedy_Decoder) (m : Model)
    (seq : List Nat) : List Nat → List Nat → Option (List Nat)
  | [], summary => some summary
  | i :: rest, summary =>
    match d.find_next_word summary i m seq with
    | none => none
    | some s =>
      if d.word2idx "</s>" ∈ s then some s else d.decodeLoop m seq rest s

/-- `Greedy_Decoder.decode`: seed with `C` start tags, iterate
`find_next_word`, and return the words from buffer position `C-1` on. -/
def Greedy_Decoder.decode (d : Greedy_Decoder) (sequence : List String)
    (m : Model) : Option (List String) :=
  let summary := List.replicate d.C (d.word2idx "<s>")
  let seq := sequence.map d.word2idx
  (d.decodeLoop m seq (List.range' d.C (d.length + d.C - 1 - d.C)) summary).map
    (fun s => (s.drop (d.C - 1)).map d.idx2word)

/-! ### Beam search decoder -/

/-- One hypothesis: a sequence buffer of token ids with its accumulated
log-probability score. -/
abbrev Hyp := List Nat × ℚ

/-- The per-step candidate pool `n_h`: a Python dict from continuation token
id to its best hypothesis, as an insertion-ordered association list. -/
abbrev Pool := List (Nat × Hyp)

/-- Dict lookup `n_h[token]` (`none` when `token not in n_h`). -/
def dictGet? : Pool → Nat → Option Hyp
  | [], _ => none
  | kv :: rest, t => if kv.1 = t then some kv.2 else dictGet? rest t

/-- Dict assignment `n_h[token] = v`: overwrite in place if the key exists,
otherwise append the new binding at the end (insertion order). -/
def dictSet : Pool → Nat → Hyp → Pool
  | [], t, v => [(t, v)]
  | kv :: rest, t, v => if kv.1 = t then (t, v) :: rest else kv :: dictSet rest t v

/-- The body of the innermost loop of `Beam_Search_Decoder.decode`:
`if token not in n_h or (token in n_h and new_prob > n_h[token][1]):
n_h[token] = (hypothesis + [token], new_prob)`. -/
def poolUpdate (n_h : Pool) (hypothesis : List Nat) (token : Nat)
    (new_prob : ℚ) : Pool :=
  match dictGet? n_h token with
  | none => dictSet n_h token (hypothesis ++ [token], new_prob)
  | some old =>
    if old.2 < new_prob then dictSet n_h token (hypothesis ++ [token], new_prob)
    else n_h

/-- Configuration state of `Beam_Search_Decoder`. -/
structure Beam_Search_Decoder where
  word2idx : String → Nat
  idx2word : Nat → String
  C : Nat
  length : Nat
  beam_size : Nat
  original_beam_size : Nat
  verbose : Bool

/-- `Beam_Search_Decoder.__init__`: stores the configuration exactly as
given, with `original_beam_size = beam_size` (no validation is performed). -/
def Beam_Search_Decoder.init (w2i : String → Nat) (i2w : Nat → String)
    (context_size len beam : Nat) (verbose : Bool) : Beam_Search_Decoder :=
  ⟨w2i, i2w, context_size, len, beam, beam, verbose⟩

/-- `Beam_Search_Decoder.predict`: scores one context window and keeps the
top `beam_size` continuations (`torch.topk(scores, self.beam_size)`).
`self.beam_size` is never written between `__init__` and the final reset
of `decode`, so it is read from the configuration. -/
def Beam_Search_Decoder.predict (d : Beam_Search_Decoder) (m : Model)
    (seq summary : List Nat) : List (Nat × ℚ) :=
  topk m seq summary d.beam_size

/-- One expansion step: gather every parent's top-`beam_size` continuations
into the candidate pool `n_h`, keyed by continuation token id (the two
nested `for` loops over `hypotheses` and `range(self.beam_size)`). -/
def Beam_Search_Decoder.expandStep (d : Beam_Search_Decoder) (m : Model)
    (seq : List Nat) (i : Nat) (hypotheses : List Hyp) : Pool :=
  hypotheses.foldl
    (fun n_h hp =>
      (d.predict m seq (pySlice (i - d.C) i hp.1)).foldl
        (fun n_h tp => poolUpdate n_h hp.1 tp.1 (hp.2 + tp.2)) n_h)
    []

/-- The list of `(parent buffer, continuation token, combined score)` triples
generated during one expansion step, in generation order: a specification
view of the same two nested loops, used to state what `expandStep` keeps. -/
def Beam_Search_Decoder.proposals (d : Beam_Search_Decoder) (m : Model)
    (seq : List Nat) (i : Nat) : List Hyp → List (List Nat × Nat × ℚ)
  | [] => []
  | hp :: rest =>
    (d.predict m seq (pySlice (i - d.C) i hp.1)).map
      (fun tp => (hp.1, tp.1, hp.2 + tp.2)) ++ d.proposals m seq i rest

/-- Folding the candidate pool over a list of proposal triples. -/
def poolOfProposals (init : Pool) (l : List (List Nat × Nat × ℚ)) : Pool :=
  l.foldl (fun n_h e => poolUpdate n_h e.1 e.2.1 e.2.2) init

/-- Comparator of Python's stable `sorted(hypotheses, key=lambda x: x[1],
reverse=True)`: greater-or-equal score first. -/
def probGe (a b : Hyp) : Prop := b.2 ≤ a.2

instance : DecidableRel probGe := fun a b =>
  inferInstanceAs (Decidable (b.2 ≤ a.2))

instance : IsTotal Hyp probGe := ⟨fun a b => le_total b.2 a.2⟩

instance : IsTrans Hyp probGe := ⟨fun _ _ _ hab hbc => le_trans hbc hab⟩

/-- The length penalty `lp = (5 + len(hypothesis))**1 / (5 + 1)**1` applied
at final selection. -/
def length_penalty (hypothesis : List Nat) : ℚ :=
  (5 + (hypothesis.length : ℚ)) ^ 1 / (5 + 1 : ℚ) ^ 1

/-- `Beam_Search_Decoder.select_top`: optionally rescale every hypothesis by
the length penalty (`final=True`), then stable-sort by descending score and
keep the best `K`. -/
def Beam_Search_Decoder.select_top (_d : Beam_Search_Decoder)
    (hypotheses : List Hyp) (K : Nat) (final : Bool) : List Hyp :=
  let hs := if final then
      hypotheses.map (fun hp => (hp.1, hp.2 / length_penalty hp.1))
    else hypotheses
  (List.insertionSort probGe hs).take K

/-- One iteration of the expansion loop of `Beam_Search_Decoder.decode`,
on the state (live beam, finalized list): build the pool, select the top
`K` candidates, and move the ones whose buffer contains the end tag to the
finalized list. -/
def Beam_Search_Decoder.stepBeam (d : Beam_Search_Decoder) (m : Model)
    (seq : List Nat) (i : Nat) (st : List Hyp × List Hyp) :
    List Hyp × List Hyp :=
  let n_h := d.expandStep m seq i st.1
  let hypotheses := d.select_top (n_h.map Prod.snd) d.beam_size false
  let parts := hypotheses.partition (fun h => d.word2idx "</s>" ∈ h.1)
  (parts.2, st.2 ++ parts.1)

/-- The `for i in range(C+1, length+C-1)` loop of
`Beam_Search_Decoder.decode`, with its `if self.beam_size == 0: break`
placed after the loop body, exactly as in the source (the test reads the
configured `self.beam_size`, which no code path mutates). -/
def Beam_Search_Decoder.decodeLoop (d : Beam_Search_Decoder) (m : Model)
    (seq : List Nat) : List Nat → List Hyp × List Hyp → List Hyp × List Hyp
  | [], st => st
  | i :: rest, st =>
    let st' := d.stepBeam m seq i st
    if d.beam_size = 0 then st' else d.decodeLoop m seq rest st'

/-- Steps 1-4 of `Beam_Search_Decoder.decode`: seed the beam from the top
`beam_size` continuations of the start-tag window, run the expansion loop,
and merge the remaining live beam into the finalized list
(`hypotheses.extend(final)` puts the live hypotheses first). -/
def Beam_Search_Decoder.mergedHypotheses (d : Beam_Search_Decoder)
    (m : Model) (sequence : List String) : List Hyp :=
  let summary := List.replicate d.C (d.word2idx "<s>")
  let seq := sequence.map d.word2idx
  let seed := d.predict m seq (pySlice 0 d.C summary)
  let hypotheses := seed.map (fun tp => (summary ++ [tp.1], tp.2))
  let st := d.decodeLoop m seq
    (List.range' (d.C + 1) (d.length + d.C - 1 - (d.C + 1))) (hypotheses, [])
  st.1 ++ st.2

/-- `Beam_Search_Decoder.decode`: final selection with length normalization
(`select_top(hypotheses, 1, True)[0]`), then the words from buffer position
`C-1` on; `none` models the `IndexError` of `[0]` on an empty list. The
closing `self.beam_size = self.original_beam_size` of the source only
rewrites the (never mutated) configured value and has no observable
effect here. -/
def Beam_Search_Decoder.decode (d : Beam_Search_Decoder) (sequence : List String)
    (m : Model) : Option (List String) :=
  match d.select_top (d.mergedHypotheses m sequence) 1 true with
  | [] => none
  | hp :: _ => some ((hp.1.drop (d.C - 1)).map d.idx2word)

/-- Instrumented copy of `decodeLoop`: additionally returns the number of
loop iterations whose body was executed and, per executed iteration, the
number of live hypotheses at its start (one Scoring Model call is made per
live hypothesis, so that is the iteration's model-call count). -/
def Beam_Search_Decoder.decodeLoopIters (d : Beam_Search_Decoder) (m : Model)
    (seq : List Nat) :
    List Nat → List Hyp × List Hyp → (List Hyp × List Hyp) × Nat × List Nat
  | [], st => (st, 0, [])
  | i :: rest, st =>
    let calls := st.1.length
    let st' := d.stepBeam m seq i st
    if d.beam_size = 0 then (st', 1, [calls])
    else
      let r := d.decodeLoopIters m seq rest st'
      (r.1, r.2.1 + 1, calls :: r.2.2)

/-- The iteration/model-call record of one `decode` call: how many expansion
iterations ran and how many Scoring Model calls each made. -/
def Beam_Search_Decoder.decodeIterInfo (d : Beam_Search_Decoder)
    (m : Model) (sequence : List String) : Nat × List Nat :=
  let summary := List.replicate d.C (d.word2idx "<s>")
  let seq := sequence.map d.word2idx
  let seed := d.predict m seq (pySlice 0 d.C summary)
  let hypotheses := seed.map (fun tp => (summary ++ [tp.1], tp.2))
  (d.decodeLoopIters m seq
    (List.range' (d.C + 1) (d.length + d.C - 1 - (d.C + 1))) (hypotheses, [])).2

/-! ### Concrete test fixtures (vocabulary `<s>:0, </s>:1, cat:2, sat:3`) -/

/-- Test vocabulary index, word to id. -/
def testW2i : String → Nat := fun w =>
  if w = "<s>" then 0 else if w = "</s>" then 1 else if w = "cat" then 2 else 3

/-- Test vocabulary index, id to word. -/
def testI2w : Nat → String := fun n =>
  if n = 0 then "<s>" else if n = 1 then "</s>" else if n = 2 then "cat" else "sat"

/-- A scoring model that always ranks the end tag (id 1) strictly highest. -/
def endBestModel : Model := ⟨4, fun _ _ t => if t = 1 then 0 else -(1 : ℚ) - t⟩

/-- Greedy decoder with `C = 1`, `L = 3`. -/
def greedyTest : Greedy_Decoder := Greedy_Decoder.init testW2i testI2w 1 3

/-- Beam decoder with `C = 1`, `L = 3`, `K = 2`. -/
def beamTest : Beam_Search_Decoder :=
  Beam_Search_Decoder.init testW2i testI2w 1 3 2 false

/-- Beam decoder with `C = 1`, `L = 6`, `K = 1`. -/
def beamK1L6 : Beam_Search_Decoder :=
  Beam_Search_Decoder.init testW2i testI2w 1 6 1 false

/-- A model under which two different parents (ending in 2 resp. 3) both
propose continuation id 3, with combined scores `-0.1` and `-0.5`. -/
def dupModel : Model :=
  ⟨4, fun _ ctx t =>
    if ctx = [2] then
      (if t = 3 then -(1 : ℚ) / 10 else if t = 2 then -(1 : ℚ) / 5 else -1)
    else
      (if t = 3 then -(1 : ℚ) / 2 else if t = 2 then -(3 : ℚ) / 5 else -1)⟩

/-- Two parent hypotheses with score 0, both about to propose token 3. -/
def dupParents : List Hyp := [([0, 2], 0), ([0, 3], 0)]

/-! ### Dictionary and candidate-pool lemmas -/

theorem dictGet?_dictSet_self (p : Pool) (t : Nat) (v : Hyp) :
    dictGet? (dictSet p t v) t = some v := by
  induction p with
  | nil => simp [dictGet?, dictSet]
  | cons kv rest ih =>
    by_cases h : kv.1 = t
    · simp [dictGet?, dictSet, h]
    · simp [dictGet?, dictSet, h, ih]

theorem dictGet?_dictSet_ne (p : Pool) (t t' : Nat) (v : Hyp) (h : t' ≠ t) :
    dictGet? (dictSet p t v) t' = dictGet? p t' := by
  induction p with
  | nil => simp [dictGet?, dictSet, Ne.symm h]
  | cons kv rest ih =>
    by_cases hk : kv.1 = t
    · simp [dictGet?, dictSet, hk, Ne.symm h]
    · simp only [dictSet, if_neg hk, dictGet?]
      by_cases hk' : kv.1 = t'
      · simp [hk']
      · simp [hk', ih]

theorem mem_keys_dictSet (p : Pool) (t k : Nat) (v : Hyp)
    (h : k ∈ (dictSet p t v).map Prod.fst) :
    k ∈ p.map Prod.fst ∨ k = t := by
  induction p with
  | nil => simpa [dictSet] using h
  | cons kv rest ih =>
    by_cases hk : kv.1 = t
    · simp only [dictSet, if_pos hk, List.map_cons, List.mem_cons] at h
      rcases h with h | h
      · exact Or.inr h
      · exact Or.inl (by simp [h])
    · simp only [dictSet, if_neg hk, List.map_cons, List.mem_cons] at h
      rcases h with h | h
      · exact Or.inl (by simp [h])
      · rcases ih h with h' | h'
        · exact Or.inl (by simp [List.mem_cons]; right; simpa using h')
        · exact Or.inr h'

theorem nodupKeys_dictSet (p : Pool) (t : Nat) (v : Hyp)
    (h : (p.map Prod.fst).Nodup) : ((dictSet p t v).map Prod.fst).Nodup := by
  induction p with
  | nil => simp [dictSet]
  | cons kv rest ih =>
    simp only [List.map_cons, List.nodup_cons] at h
    by_cases hk : kv.1 = t
    · simpa [dictSet, hk, List.nodup_cons] using h
    · simp only [dictSet, if_neg hk, List.map_cons, List.nodup_cons]
      refine ⟨fun hmem => ?_, ih h.2⟩
      rcases mem_keys_dictSet rest t kv.1 v hmem with h' | h'
      · exact h.1 h'
      · exact hk h'

theorem dictSet_ne_nil (p : Pool) (t : Nat) (v : Hyp) : dictSet p t v ≠ [] := by
  cases p with
  | nil => simp [dictSet]
  | cons kv rest =>
    by_cases hk : kv.1 = t <;> simp [dictSet, hk]

theorem dictGet?_eq_some_of_mem (p : Pool) (e : Nat × Hyp)
    (hnd : (p.map Prod.fst).Nodup) (h : e ∈ p) : dictGet? p e.1 = some e.2 := by
  induction p with
  | nil => cases h
  | cons kv rest ih =>
    simp only [List.map_cons, List.nodup_cons] at hnd
    rcases List.mem_cons.1 h with h | h
    · subst h; simp [dictGet?]
    · have hne : kv.1 ≠ e.1 := fun hEq => hnd.1 (hEq ▸ List.mem_map_of_mem Prod.fst h)
      simp [dictGet?, hne, ih hnd.2 h]

theorem poolUpdate_get_self (p : Pool) (h : List Nat) (t : Nat) (s : ℚ) :
    dictGet? (poolUpdate p h t s) t =
      some (match dictGet? p t with
            | none => (h ++ [t], s)
            | some old => if old.2 < s then (h ++ [t], s) else old) := by
  unfold poolUpdate
  cases hget : dictGet? p t with
  | none => simp [dictGet?_dictSet_self]
  | some old =>
    by_cases hlt : old.2 < s
    · simp [hlt, dictGet?_dictSet_self]
    · simp [hlt, hget]

theorem poolUpdate_get_ne (p : Pool) (h : List Nat) (t t' : Nat) (s : ℚ)
    (hne : t' ≠ t) : dictGet? (poolUpdate p h t s) t' = dictGet? p t' := by
  unfold poolUpdate
  cases hget : dictGet? p t with
  | none => simp [dictGet?_dictSet_ne _ _ _ _ hne]
  | some old =>
    by_cases hlt : old.2 < s
    · simp [hlt, dictGet?_dictSet_ne _ _ _ _ hne]
    · simp [hlt]

theorem nodupKeys_poolUpdate (p : Pool) (h : List Nat) (t : Nat) (s : ℚ)
    (hnd : (p.map Prod.fst).Nodup) :
    ((poolUpdate p h t s).map Prod.fst).Nodup := by
  unfold poolUpdate
  cases dictGet? p t with
  | none => exact nodupKeys_dictSet _ _ _ hnd
  | some old =>
    by_cases hlt : old.2 < s
    · simpa [hlt] using nodupKeys_dictSet p t (h ++ [t], s) hnd
    · simpa [hlt] using hnd

theorem poolUpdate_ne_nil (p : Pool) (h : List Nat) (t : Nat) (s : ℚ) :
    poolUpdate p h t s ≠ [] := by
  unfold poolUpdate
  cases hget : dictGet? p t with
  | none => exact dictSet_ne_nil _ _ _
  | some old =>
    have hp : p ≠ [] := by
      intro hnil; rw [hnil] at hget; simp [dictGet?] at hget
    by_cases hlt : old.2 < s
    · simpa [hlt] using dictSet_ne_nil p t (h ++ [t], s)
    · simpa [hlt] using hp

theorem poolOfProposals_nil (init : Pool) : poolOfProposals init [] = init := rfl

theorem poolOfProposals_cons (init : Pool) (e : List Nat × Nat × ℚ)
    (l : List (List Nat × Nat × ℚ)) :
    poolOfProposals init (e :: l) =
      poolOfProposals (poolUpdate init e.1 e.2.1 e.2.2) l := rfl

theorem poolOfProposals_append (init : Pool) (l₁ l₂ : List (List Nat × Nat × ℚ)) :
    poolOfProposals init (l₁ ++ l₂) =
      poolOfProposals (poolOfProposals init l₁) l₂ := by
  simp [poolOfProposals, List.foldl_append]

theorem nodupKeys_poolOfProposals (l : List (List Nat × Nat × ℚ)) :
    ∀ init : Pool, (init.map Prod.fst).Nodup →
      ((poolOfProposals init l).map Prod.fst).Nodup := by
  induction l with
  | nil => intro init h; simpa [poolOfProposals_nil] using h
  | cons e rest ih =>
    intro init h
    rw [poolOfProposals_cons]
    exact ih _ (nodupKeys_poolUpdate _ _ _ _ h)

theorem poolOfProposals_ne_nil (l : List (List Nat × Nat × ℚ)) :
    ∀ init : Pool, init ≠ [] ∨ l ≠ [] → poolOfProposals init l ≠ [] := by
  induction l with
  | nil =>
    intro init h
    rcases h with h | h
    · simpa [poolOfProposals_nil] using h
    · exact absurd rfl h
  | cons e rest ih =>
    intro init _
    rw [poolOfProposals_cons]
    exact ih _ (Or.inl (poolUpdate_ne_nil _ _ _ _))

/-- What the candidate pool holds for a token nobody proposed: nothing. -/
theorem poolOfProposals_get_none (l : List (List Nat × Nat × ℚ)) (tok : Nat) :
    dictGet? (poolOfProposals [] l) tok = none ↔ ∀ e ∈ l, e.2.1 ≠ tok := by
  induction l using List.reverseRecOn with
  | nil => simp [poolOfProposals_nil, dictGet?]
  | append_singleton l e ih =>
    rw [poolOfProposals_append, poolOfProposals_cons, poolOfProposals_nil]
    by_cases htok : e.2.1 = tok
    · rw [htok, poolUpdate_get_self]
      simp only [List.forall_mem_append]
      constructor
      · intro h; cases h
      · intro h
        exact absurd htok (h.2 e (by simp))
    · rw [poolUpdate_get_ne _ _ _ _ _ (Ne.symm htok), ih]
      simp only [List.forall_mem_append, List.forall_mem_singleton]
      constructor
      · intro h; exact ⟨h, htok⟩
      · intro h; exact h.1

/-- What the candidate pool holds for a proposed token: a proposed entry
`(parent buffer ++ [token], combined score)` whose combined score is maximal
among all proposals for that token. -/
theorem poolOfProposals_get_some (l : List (List Nat × Nat × ℚ)) (tok : Nat)
    (b : List Nat) (s : ℚ)
    (h : dictGet? (poolOfProposals [] l) tok = some (b, s)) :
    (∃ e ∈ l, e.2.1 = tok ∧ b = e.1 ++ [tok] ∧ s = e.2.2) ∧
      ∀ e ∈ l, e.2.1 = tok → e.2.2 ≤ s := by
  induction l using List.reverseRecOn generalizing b s with
  | nil => simp [poolOfProposals_nil, dictGet?] at h
  | append_singleton l e ih =>
    rw [poolOfProposals_append, poolOfProposals_cons, poolOfProposals_nil] at h
    by_cases htok : e.2.1 = tok
    · rw [htok, poolUpdate_get_self] at h
      cases hP : dictGet? (poolOfProposals [] l) tok with
      | none =>
        rw [hP] at h
        simp only [Option.some.injEq, Prod.mk.injEq] at h
        have hnone := (poolOfProposals_get_none l tok).1 hP
        refine ⟨⟨e, by simp, htok, h.1.symm, h.2.symm⟩, ?_⟩
        intro e' he' htok'
        rcases List.mem_append.1 he' with he' | he'
        · exact absurd htok' (hnone e' he')
        · rw [List.mem_singleton.1 he', h.2]
      | some old =>
        rw [hP] at h
        rcases ih old.1 old.2 (by rw [hP]) with ⟨⟨e₀, he₀, he₀tok, hb₀, hs₀⟩, hmax⟩
        by_cases hlt : old.2 < e.2.2
        · simp only [if_pos hlt, Option.some.injEq, Prod.mk.injEq] at h
          refine ⟨⟨e, by simp, htok, h.1.symm, h.2.symm⟩, ?_⟩
          intro e' he' htok'
          rcases List.mem_append.1 he' with he' | he'
          · calc e'.2.2 ≤ old.2 := hmax e' he' htok'
              _ ≤ e.2.2 := le_of_lt hlt
              _ = s := h.2
          · rw [List.mem_singleton.1 he', h.2]
        · simp only [if_neg hlt, Option.some.injEq] at h
          rw [h] at hb₀ hs₀ hmax hlt
          refine ⟨⟨e₀, List.mem_append_left _ he₀, he₀tok, hb₀, hs₀⟩, ?_⟩
          intro e' he' htok'
          rcases List.mem_append.1 he' with he' | he'
          · exact hmax e' he' htok'
          · rw [List.mem_singleton.1 he']
            exact not_lt.1 hlt
    · rw [poolUpdate_get_ne _ _ _ _ _ (Ne.symm htok)] at h
      rcases ih b s h with ⟨⟨e₀, he₀, he₀tok, hb₀, hs₀⟩, hmax⟩
      refine ⟨⟨e₀, List.mem_append_left _ he₀, he₀tok, hb₀, hs₀⟩, ?_⟩
      intro e' he' htok'
      rcases List.mem_append.1 he' with he' | he'
      · exact hmax e' he' htok'
      · exact absurd (List.mem_singleton.1 he' ▸ htok') htok

/-- Generation-order view of the two nested expansion loops: membership in
`proposals` is exactly "some parent proposes this continuation". -/
theorem mem_proposals (d : Beam_Search_Decoder) (m : Model) (seq : List Nat)
    (i : Nat) : ∀ (hyps : List Hyp) (e : List Nat × Nat × ℚ),
    e ∈ d.proposals m seq i hyps ↔
      ∃ hp ∈ hyps, ∃ tp ∈ d.predict m seq (pySlice (i - d.C) i hp.1),
        e = (hp.1, tp.1, hp.2 + tp.2) := by
  intro hyps
  induction hyps with
  | nil => simp [Beam_Search_Decoder.proposals]
  | cons hp rest ih =>
    intro e
    simp only [Beam_Search_Decoder.proposals, List.mem_append, List.mem_map, ih,
      List.mem_cons]
    constructor
    · rintro (⟨tp, htp, rfl⟩ | ⟨hp', hhp', tp, htp, rfl⟩)
      · exact ⟨hp, Or.inl rfl, tp, htp, rfl⟩
      · exact ⟨hp', Or.inr hhp', tp, htp, rfl⟩
    · rintro ⟨hp', hhp' | hhp', tp, htp, rfl⟩
      · subst hhp'; exact Or.inl ⟨tp, htp, rfl⟩
      · exact Or.inr ⟨hp', hhp', tp, htp, rfl⟩

/-- The nested fold of `expandStep` builds exactly the pool of the
generation-order proposal list. -/
theorem expandStep_eq_poolOfProposals (d : Beam_Search_Decoder) (m : Model)
    (seq : List Nat) (i : Nat) (hyps : List Hyp) :
    d.expandStep m seq i hyps = poolOfProposals [] (d.proposals m seq i hyps) := by
  suffices h : ∀ (hyps : List Hyp) (init : Pool),
      hyps.foldl
        (fun n_h hp =>
          (d.predict m seq (pySlice (i - d.C) i hp.1)).foldl
            (fun n_h tp => poolUpdate n_h hp.1 tp.1 (hp.2 + tp.2)) n_h)
        init = poolOfProposals init (d.proposals m seq i hyps) by
    exact h hyps []
  intro hyps
  induction hyps with
  | nil => intro init; rfl
  | cons hp rest ih =>
    intro init
    rw [List.foldl_cons, ih, Beam_Search_Decoder.proposals,
      poolOfProposals_append]
    congr 1
    simp [poolOfProposals, List.foldl_map]

/-! ### Sorting and selection lemmas -/

theorem insertionSort_head_rel {α : Type} (r : α → α → Prop) [DecidableRel r]
    [IsTotal α r] [IsTrans α r] (l : List α) (x : α) (xs : List α)
    (h : List.insertionSort r l = x :: xs) : ∀ y ∈ l, r x y := by
  intro y hy
  have hperm := List.perm_insertionSort r l
  have hmem : y ∈ x :: xs := h ▸ hperm.mem_iff.2 hy
  rcases List.mem_cons.1 hmem with rfl | hmem
  · exact (IsTotal.total y y).elim id id
  · have hs := List.sorted_insertionSort r l
    rw [h, List.sorted_cons] at hs
    exact hs.1 y hmem

theorem select_top_length (d : Beam_Search_Decoder) (hs : List Hyp) (K : Nat)
    (b : Bool) : (d.select_top hs K b).length ≤ K := by
  unfold Beam_Search_Decoder.select_top
  calc (List.take K _).length ≤ K := List.length_take_le _ _

theorem mem_select_top_false (d : Beam_Search_Decoder) (hs : List Hyp) (K : Nat)
    (x : Hyp) (h : x ∈ d.select_top hs K false) : x ∈ hs := by
  unfold Beam_Search_Decoder.select_top at h
  simp only [Bool.false_eq_true, if_false] at h
  exact (List.perm_insertionSort probGe hs).mem_iff.1 (List.take_subset _ _ h)

theorem select_top_ne_nil (d : Beam_Search_Decoder) (hs : List Hyp) (K : Nat)
    (b : Bool) (h : hs ≠ []) (hK : 1 ≤ K) : d.select_top hs K b ≠ [] := by
  unfold Beam_Search_Decoder.select_top
  rw [← List.length_pos]
  have hlen : (if b = true then
      hs.map (fun hp => (hp.1, hp.2 / length_penalty hp.1)) else hs).length =
      hs.length := by
    cases b <;> simp
  rw [List.length_take, (List.perm_insertionSort probGe _).length_eq, hlen]
  have := List.length_pos.2 h
  omega

/-- The head of the length-normalized final selection: it is the
normalization of a merged hypothesis and its normalized score dominates the
normalized score of every merged hypothesis. -/
theorem select_top_final_head (d : Beam_Search_Decoder) (hs : List Hyp)
    (hp : Hyp) (rest : List Hyp) (h : d.select_top hs 1 true = hp :: rest) :
    (∃ e ∈ hs, hp = (e.1, e.2 / length_penalty e.1)) ∧
      ∀ e ∈ hs, e.2 / length_penalty e.1 ≤ hp.2 := by
  unfold Beam_Search_Decoder.select_top at h
  simp only [eq_self_iff_true, if_true] at h
  set f : Hyp → Hyp := fun hp => (hp.1, hp.2 / length_penalty hp.1) with hf
  cases hsort : List.insertionSort probGe (hs.map f) with
  | nil => rw [hsort] at h; simp at h
  | cons y ys =>
    rw [hsort] at h
    simp only [List.take_succ_cons, List.take_zero] at h
    have hy : y = hp := (List.cons.injEq _ _ _ _ ▸ h).1
    subst hy
    have hhead := insertionSort_head_rel probGe (hs.map f) y ys hsort
    have hymem : y ∈ hs.map f :=
      (List.perm_insertionSort probGe (hs.map f)).mem_iff.1
        (hsort ▸ List.mem_cons_self y ys)
    rcases List.mem_map.1 hymem with ⟨e, he, hye⟩
    refine ⟨⟨e, he, hye.symm⟩, ?_⟩
    intro e' he'
    have := hhead (f e') (List.mem_map_of_mem f he')
    simpa [probGe, hf] using this

/-! ### Beam step and loop lemmas -/

theorem stepBeam_live_length (d : Beam_Search_Decoder) (m : Model)
    (seq : List Nat) (i : Nat) (st : List Hyp × List Hyp) :
    ((d.stepBeam m seq i st).1).length ≤ d.beam_size := by
  unfold Beam_Search_Decoder.stepBeam
  simp only [List.partition_eq_filter_filter]
  calc (List.filter _ _).length
      ≤ (d.select_top ((d.expandStep m seq i st.1).map Prod.snd) d.beam_size
          false).length := List.length_filter_le _ _
    _ ≤ d.beam_size := select_top_length _ _ _ _

/-- Every hypothesis of the state after one expansion step is either an
already finalized one or a one-token extension of a live parent. -/
theorem mem_stepBeam (d : Beam_Search_Decoder) (m : Model) (seq : List Nat)
    (i : Nat) (st : List Hyp × List Hyp) (e : Hyp)
    (h : e ∈ (d.stepBeam m seq i st).1 ∨ e ∈ (d.stepBeam m seq i st).2) :
    e ∈ st.2 ∨ ∃ hp ∈ st.1, ∃ t s, e = (hp.1 ++ [t], s) := by
  have hsel : e ∈ st.2 ∨
      e ∈ d.select_top ((d.expandStep m seq i st.1).map Prod.snd) d.beam_size
        false := by
    unfold Beam_Search_Decoder.stepBeam at h
    simp only [List.partition_eq_filter_filter] at h
    rcases h with h | h
    · exact Or.inr (List.mem_of_mem_filter h)
    · rcases List.mem_append.1 h with h | h
      · exact Or.inl h
      · exact Or.inr (List.mem_of_mem_filter h)
  rcases hsel with h | h
  · exact Or.inl h
  · right
    have hval : e ∈ (d.expandStep m seq i st.1).map Prod.snd :=
      mem_select_top_false _ _ _ _ h
    rcases List.mem_map.1 hval with ⟨kv, hkv, hkve⟩
    rw [expandStep_eq_poolOfProposals] at hkv
    have hnd := nodupKeys_poolOfProposals (d.proposals m seq i st.1) [] (by simp)
    have hget := dictGet?_eq_some_of_mem _ kv hnd hkv
    rcases poolOfProposals_get_some _ kv.1 kv.2.1 kv.2.2 (by rw [hget]) with
      ⟨⟨e₀, he₀, _, hb₀, hs₀⟩, _⟩
    rcases (mem_proposals d m seq i st.1 e₀).1 he₀ with ⟨hp, hhp, tp, _, he₀eq⟩
    refine ⟨hp, hhp, kv.1, kv.2.2, ?_⟩
    have h1 : kv.2.1 = hp.1 ++ [kv.1] := by rw [hb₀, he₀eq]
    rw [← hkve, ← h1]

theorem decodeLoop_invariant (d : Beam_Search_Decoder) (m : Model)
    (seq : List Nat) (P : List Hyp × List Hyp → Prop)
    (hstep : ∀ i st, P st → P (d.stepBeam m seq i st)) :
    ∀ (steps : List Nat) (st : List Hyp × List Hyp),
      P st → P (d.decodeLoop m seq steps st) := by
  intro steps
  induction steps with
  | nil => intro st h; exact h
  | cons i rest ih =>
    intro st h
    unfold Beam_Search_Decoder.decodeLoop
    by_cases hb : d.beam_size = 0
    · simpa [hb] using hstep i st h
    · simpa [hb] using ih _ (hstep i st h)

theorem decodeLoop_bound (d : Beam_Search_Decoder) (m : Model) (seq : List Nat)
    (P : Nat → List Hyp × List Hyp → Prop)
    (hstep : ∀ i st n, P n st → P (n + 1) (d.stepBeam m seq i st))
    (hmono : ∀ n n' st, n ≤ n' → P n st → P n' st) :
    ∀ (steps : List Nat) (st : List Hyp × List Hyp) (n : Nat),
      P n st → P (n + steps.length) (d.decodeLoop m seq steps st) := by
  intro steps
  induction steps with
  | nil => intro st n h; simpa using h
  | cons i rest ih =>
    intro st n h
    unfold Beam_Search_Decoder.decodeLoop
    by_cases hb : d.beam_size = 0
    · simp only [hb, if_pos rfl]
      exact hmono _ _ _ (by rw [List.length_cons]; omega) (hstep i st n h)
    · simp only [hb, if_neg hb]
      have := ih (d.stepBeam m seq i st) (n + 1) (hstep i st n h)
      exact hmono _ _ _ (by rw [List.length_cons]; omega) this

theorem stepBeam_empty_live (d : Beam_Search_Decoder) (m : Model)
    (seq : List Nat) (i : Nat) (fin : List Hyp) :
    d.stepBeam m seq i ([], fin) = ([], fin) := by
  unfold Beam_Search_Decoder.stepBeam Beam_Search_Decoder.expandStep
    Beam_Search_Decoder.select_top
  simp [List.partition_eq_filter_filter]

theorem predict_ne_nil (d : Beam_Search_Decoder) (m : Model)
    (seq ctx : List Nat) (hK : 1 ≤ d.beam_size) (hV : 1 ≤ m.V) :
    d.predict m seq ctx ≠ [] := by
  unfold Beam_Search_Decoder.predict topk
  rw [← List.length_pos, List.length_take,
    (List.perm_insertionSort scoreOrd _).length_eq, List.length_map,
    List.length_range]
  omega

/-- One expansion step never loses the last hypothesis: if the live beam and
the finalized list are not both empty, they are not both empty afterwards. -/
theorem stepBeam_merged_ne_nil (d : Beam_Search_Decoder) (m : Model)
    (seq : List Nat) (i : Nat) (st : List Hyp × List Hyp)
    (hK : 1 ≤ d.beam_size) (hV : 1 ≤ m.V) (h : st.1 ++ st.2 ≠ []) :
    (d.stepBeam m seq i st).1 ++ (d.stepBeam m seq i st).2 ≠ [] := by
  cases hlive : st.1 with
  | nil =>
    have hst : st = ([], st.2) := by rw [← hlive]
    rw [hst, stepBeam_empty_live]
    rw [hlive] at h
    simpa using h
  | cons hp rest =>
    have hprops : d.proposals m seq i st.1 ≠ [] := by
      rw [hlive]
      unfold Beam_Search_Decoder.proposals
      intro hnil
      rcases List.append_eq_nil.1 hnil with ⟨h1, _⟩
      exact predict_ne_nil d m seq _ hK hV (List.map_eq_nil_iff.1 h1)
    have hpool : d.expandStep m seq i st.1 ≠ [] := by
      rw [expandStep_eq_poolOfProposals]
      exact poolOfProposals_ne_nil _ [] (Or.inr hprops)
    have hvals : (d.expandStep m seq i st.1).map Prod.snd ≠ [] := by
      simpa [List.map_eq_nil_iff] using hpool
    have hsel := select_top_ne_nil d _ d.beam_size false hvals hK
    rcases List.exists_mem_of_ne_nil _ hsel with ⟨x, hx⟩
    unfold Beam_Search_Decoder.stepBeam
    simp only [List.partition_eq_filter_filter]
    intro hnil
    rcases List.append_eq_nil.1 hnil with ⟨h2, h3⟩
    rcases List.append_eq_nil.1 h3 with ⟨_, h1⟩
    by_cases hpx : d.word2idx "</s>" ∈ x.1
    · rw [List.eq_nil_iff_forall_not_mem] at h1
      exact h1 x (List.mem_filter.2 ⟨hx, by simpa using hpx⟩)
    · rw [List.eq_nil_iff_forall_not_mem] at h2
      exact h2 x (List.mem_filter.2 ⟨hx, by simpa using hpx⟩)

/-- The instrumented loop computes the same final state as the plain loop. -/
theorem decodeLoopIters_fst (d : Beam_Search_Decoder) (m : Model)
    (seq : List Nat) : ∀ (steps : List Nat) (st : List Hyp × List Hyp),
    (d.decodeLoopIters m seq steps st).1 = d.decodeLoop m seq steps st := by
  intro steps
  induction steps with
  | nil => intro st; rfl
  | cons i rest ih =>
    intro st
    unfold Beam_Search_Decoder.decodeLoopIters Beam_Search_Decoder.decodeLoop
    by_cases hb : d.beam_size = 0
    · simp [hb]
    · simp [hb, ih]

/-! ### Greedy decoder lemmas -/

theorem find_next_word_some (d : Greedy_Decoder) (summary : List Nat)
    (i : Nat) (m : Model) (seq : List Nat) (s : List Nat)
    (h : d.find_next_word summary i m seq = some s) :
    ∃ t, s = summary ++ [t] := by
  unfold Greedy_Decoder.find_next_word at h
  cases htk : topk m seq (pySlice (i - d.C) i summary) 2 with
  | nil => rw [htk] at h; cases h
  | cons tp rest =>
    rw [htk] at h
    exact ⟨tp.1, (Option.some.inj h).symm⟩

theorem greedy_decodeLoop_invariant (d : Greedy_Decoder) (m : Model)
    (seq : List Nat) (P : List Nat → Prop)
    (hstep : ∀ s t, P s → P (s ++ [t])) :
    ∀ (steps summary out : List Nat), P summary →
      d.decodeLoop m seq steps summary = some out → P out := by
  intro steps
  induction steps with
  | nil =>
    intro summary out hP h
    have : summary = out := by simpa [Greedy_Decoder.decodeLoop] using h
    exact this ▸ hP
  | cons i rest ih =>
    intro summary out hP h
    unfold Greedy_Decoder.decodeLoop at h
    cases hfw : d.find_next_word summary i m seq with
    | none => rw [hfw] at h; cases h
    | some s =>
      rw [hfw] at h
      rcases find_next_word_some d summary i m seq s hfw with ⟨t, rfl⟩
      have h' : (if d.word2idx "</s>" ∈ summary ++ [t] then some (summary ++ [t])
          else d.decodeLoop m seq rest (summary ++ [t])) = some out := h
      by_cases hend : d.word2idx "</s>" ∈ summary ++ [t]
      · rw [if_pos hend] at h'
        exact (Option.some.inj h') ▸ hstep _ _ hP
      · rw [if_neg hend] at h'
        exact ih _ _ (hstep _ _ hP) h'

theorem greedy_decodeLoop_length (d : Greedy_Decoder) (m : Model)
    (seq : List Nat) : ∀ (steps summary out : List Nat),
    d.decodeLoop m seq steps summary = some out →
      out.length ≤ summary.length + steps.length := by
  intro steps
  induction steps with
  | nil =>
    intro summary out h
    have : summary = out := by simpa [Greedy_Decoder.decodeLoop] using h
    simp [← this]
  | cons i rest ih =>
    intro summary out h
    unfold Greedy_Decoder.decodeLoop at h
    cases hfw : d.find_next_word summary i m seq with
    | none => rw [hfw] at h; cases h
    | some s =>
      rw [hfw] at h
      rcases find_next_word_some d summary i m seq s hfw with ⟨t, rfl⟩
      have h' : (if d.word2idx "</s>" ∈ summary ++ [t] then some (summary ++ [t])
          else d.decodeLoop m seq rest (summary ++ [t])) = some out := h
      by_cases hend : d.word2idx "</s>" ∈ summary ++ [t]
      · rw [if_pos hend] at h'
        rw [← Option.some.inj h']
        simp only [List.length_append, List.length_singleton, List.length_cons,
          List.length_nil]
        omega
      · rw [if_neg hend] at h'
        have := ih _ _ h'
        simp only [List.length_append, List.length_singleton, List.length_cons,
          List.length_nil] at this ⊢
        omega

/-- When one token strictly dominates every other score, it is the head of
the `topk` list, whatever the tie-break does. -/
theorem topk_head_of_strict_max (m : Model) (seq ctx : List Nat) (k e : Nat)
    (hk : 1 ≤ k) (hV : e < m.V)
    (hmax : ∀ t, t < m.V → t ≠ e → m.score seq ctx t < m.score seq ctx e) :
    ∃ rest, topk m seq ctx k = (e, m.score seq ctx e) :: rest := by
  unfold topk
  set pairs := (List.range m.V).map (fun t => (t, m.score seq ctx t)) with hpairs
  have hemem : (e, m.score seq ctx e) ∈ pairs := by
    rw [hpairs]
    exact List.mem_map_of_mem _ (List.mem_range.2 hV)
  cases hsort : List.insertionSort scoreOrd pairs with
  | nil =>
    exfalso
    have h1 : pairs.length = m.V := by simp [hpairs]
    have h2 := (List.perm_insertionSort scoreOrd pairs).length_eq
    rw [hsort] at h2
    simp [h1] at h2
    omega
  | cons x xs =>
    have hxmem : x ∈ pairs :=
      (List.perm_insertionSort scoreOrd pairs).mem_iff.1
        (hsort ▸ List.mem_cons_self x xs)
    rcases List.mem_map.1 (hpairs ▸ hxmem) with ⟨t, ht, hxt⟩
    have hx : x = (e, m.score seq ctx e) := by
      by_cases hte : t = e
      · rw [← hxt, hte]
      · exfalso
        have hrel := insertionSort_head_rel scoreOrd pairs x xs hsort
          (e, m.score seq ctx e) hemem
        have hlt := hmax t (List.mem_range.1 ht) hte
        rcases hrel with hrel | ⟨hrel, _⟩
        · rw [← hxt] at hrel
          exact absurd hrel (not_lt.2 (le_of_lt hlt))
        · rw [← hxt] at hrel
          simp only at hrel
          rw [hrel] at hlt
          exact lt_irrefl _ hlt
    rcases Nat.exists_eq_add_of_le hk with ⟨k', hk'⟩
    refine ⟨xs.take k', ?_⟩
    rw [hx, hk']
    simp [List.take_succ_cons, Nat.add_comm]

/-- Dropping the first `C - 1` positions of a buffer that starts with `C`
start tags keeps exactly one start tag in front. -/
theorem drop_pred_replicate_append (C : Nat) (hC : 1 ≤ C) (a : Nat)
    (r : List Nat) : (List.replicate C a ++ r).drop (C - 1) = a :: r := by
  obtain ⟨c, rfl⟩ : ∃ c, C = c + 1 := ⟨C - 1, by omega⟩
  rw [List.replicate_succ' c a, List.append_assoc]
  simp only [Nat.add_sub_cancel]
  rw [List.drop_left' (List.length_replicate c a)]
  simp

/-- `mergedHypotheses`, with its `let` bindings spelled out. -/
theorem mergedHypotheses_eq (d : Beam_Search_Decoder) (m : Model)
    (sequence : List String) :
    d.mergedHypotheses m sequence =
      (d.decodeLoop m (sequence.map d.word2idx)
        (List.range' (d.C + 1) (d.length + d.C - 1 - (d.C + 1)))
        (((d.predict m (sequence.map d.word2idx)
            (pySlice 0 d.C (List.replicate d.C (d.word2idx "<s>")))).map
          (fun tp => (List.replicate d.C (d.word2idx "<s>") ++ [tp.1], tp.2)),
          []) : List Hyp × List Hyp)).1 ++
      (d.decodeLoop m (sequence.map d.word2idx)
        (List.range' (d.C + 1) (d.length + d.C - 1 - (d.C + 1)))
        (((d.predict m (sequence.map d.word2idx)
            (pySlice 0 d.C (List.replicate d.C (d.word2idx "<s>")))).map
          (fun tp => (List.replicate d.C (d.word2idx "<s>") ++ [tp.1], tp.2)),
          []) : List Hyp × List Hyp)).2 := rfl

/-- Any property of buffers that holds of every seeded buffer and is
preserved by appending one token holds for every merged hypothesis. -/
theorem mergedHypotheses_buffer_invariant (d : Beam_Search_Decoder)
    (m : Model) (sequence : List String) (P : List Nat → Prop)
    (hseed : ∀ t, P (List.replicate d.C (d.word2idx "<s>") ++ [t]))
    (hext : ∀ b t, P b → P (b ++ [t])) :
    ∀ e ∈ d.mergedHypotheses m sequence, P e.1 := by
  rw [mergedHypotheses_eq]
  have h := decodeLoop_invariant d m (sequence.map d.word2idx)
    (fun st => ∀ e ∈ st.1 ++ st.2, P e.1)
    (fun i st hst e he => by
      rcases mem_stepBeam d m _ i st e (List.mem_append.1 he) with he' | ⟨hp, hhp, t, s, rfl⟩
      · exact hst e (List.mem_append_right _ he')
      · exact hext _ _ (hst hp (List.mem_append_left _ hhp)))
    (List.range' (d.C + 1) (d.length + d.C - 1 - (d.C + 1)))
    (((d.predict m (sequence.map d.word2idx)
        (pySlice 0 d.C (List.replicate d.C (d.word2idx "<s>")))).map
      (fun tp => (List.replicate d.C (d.word2idx "<s>") ++ [tp.1], tp.2)), []) :
      List Hyp × List Hyp)
  apply h
  intro e he
  simp only [List.append_nil] at he
  rcases List.mem_map.1 he with ⟨tp, _, rfl⟩
  exact hseed tp.1

/-- Every merged hypothesis buffer has length at most `C + 1` plus the
number of expansion iterations. -/
theorem mergedHypotheses_length_bound (d : Beam_Search_Decoder) (m : Model)
    (sequence : List String) :
    ∀ e ∈ d.mergedHypotheses m sequence,
      e.1.length ≤ d.C + 1 + (d.length + d.C - 1 - (d.C + 1)) := by
  rw [mergedHypotheses_eq]
  have h := decodeLoop_bound d m (sequence.map d.word2idx)
    (fun n st => ∀ e ∈ st.1 ++ st.2, e.1.length ≤ n)
    (fun i st n hst e he => by
      rcases mem_stepBeam d m _ i st e (List.mem_append.1 he) with he' | ⟨hp, hhp, t, s, rfl⟩
      · exact le_trans (hst e (List.mem_append_right _ he')) (by omega)
      · have := hst hp (List.mem_append_left _ hhp)
        simp only [List.length_append, List.length_singleton]
        omega)
    (fun n n' st hnn hst e he => le_trans (hst e he) hnn)
    (List.range' (d.C + 1) (d.length + d.C - 1 - (d.C + 1)))
    (((d.predict m (sequence.map d.word2idx)
        (pySlice 0 d.C (List.replicate d.C (d.word2idx "<s>")))).map
      (fun tp => (List.replicate d.C (d.word2idx "<s>") ++ [tp.1], tp.2)), []) :
      List Hyp × List Hyp)
    (d.C + 1)
  intro e he
  have hinit : ∀ e ∈ ((d.predict m (sequence.map d.word2idx)
      (pySlice 0 d.C (List.replicate d.C (d.word2idx "<s>")))).map
      (fun tp => (List.replicate d.C (d.word2idx "<s>") ++ [tp.1], tp.2)) :
      List Hyp) ++ ([] : List Hyp), e.1.length ≤ d.C + 1 := by
    intro e he
    simp only [List.append_nil] at he
    rcases List.mem_map.1 he with ⟨tp, _, rfl⟩
    simp [List.length_append, List.length_replicate]
  have := h hinit e he
  simpa [List.length_range'] using this

/-! ### Claim theorems -/

/-- C8, counterexample: constructing a greedy decoder with `C = 0 ≤ 0` and
`L = 0 ≤ 0`, or a beam-search decoder additionally with `K = 0 ≤ 0`,
succeeds and stores the invalid values; no `InvalidConfigurationError` (or
any other failure) occurs at construction time. -/
theorem C8_counterexample :
    (Greedy_Decoder.init testW2i testI2w 0 0).C = 0 ∧
    (Greedy_Decoder.init testW2i testI2w 0 0).length = 0 ∧
    (Beam_Search_Decoder.init testW2i testI2w 0 0 0 false).C = 0 ∧
    (Beam_Search_Decoder.init testW2i testI2w 0 0 0 false).length = 0 ∧
    (Beam_Search_Decoder.init testW2i testI2w 0 0 0 false).beam_size = 0 :=
  ⟨rfl, rfl, rfl, rfl, rfl⟩

/-- C8, amended: construction performs no validation at all. Both
constructors are total and store `C`, `L` (and `K`) exactly as given,
including non-positive values; no error is ever raised. -/
theorem C8_init_stores_config_unvalidated (w2i : String → Nat)
    (i2w : Nat → String) (C L K : Nat) (v : Bool) :
    Greedy_Decoder.init w2i i2w C L = ⟨w2i, i2w, C, L⟩ ∧
    Beam_Search_Decoder.init w2i i2w C L K v = ⟨w2i, i2w, C, L, K, K, v⟩ :=
  ⟨rfl, rfl⟩

/-- C5, counterexample: two finalized hypotheses with the same raw score
`-6` and lengths 1 and 7. The shorter one receives normalized score `-6`,
the longer one `-3`: the shorter hypothesis's normalized score is strictly
SMALLER, and `select_top` with `final=True` ranks the longer one first. -/
theorem C5_counterexample :
    (-6 : ℚ) / length_penalty [0] < (-6 : ℚ) / length_penalty [0, 0, 0, 0, 0, 0, 0] ∧
    beamTest.select_top [([0], -6), ([0, 0, 0, 0, 0, 0, 0], -6)] 2 true =
      [([0, 0, 0, 0, 0, 0, 0], -3), ([0], -6)] := by
  constructor
  · norm_num [length_penalty]
  · with_unfolding_all rfl

/-- C5, amended: for two hypotheses with the same raw score, the shorter
one receives the higher-or-equal normalized score when the raw score is
nonnegative; for a nonpositive raw score (the log-probability case) the
inequality reverses and the longer hypothesis scores at least as high. -/
theorem C5_norm_score_monotone (p : ℚ) (l1 l2 : List Nat)
    (h : l1.length ≤ l2.length) :
    (0 ≤ p → p / length_penalty l2 ≤ p / length_penalty l1) ∧
    (p ≤ 0 → p / length_penalty l1 ≤ p / length_penalty l2) := by
  have h1 : (0 : ℚ) < length_penalty l1 := by unfold length_penalty; positivity
  have h2 : (0 : ℚ) < length_penalty l2 := by unfold length_penalty; positivity
  have hle : length_penalty l1 ≤ length_penalty l2 := by
    unfold length_penalty
    simp only [pow_one]
    have : (l1.length : ℚ) ≤ (l2.length : ℚ) := Nat.cast_le.2 h
    have h6 : (0 : ℚ) ≤ 5 + 1 := by norm_num
    exact div_le_div_of_nonneg_right (by linarith) h6
  have hinv : (length_penalty l2)⁻¹ ≤ (length_penalty l1)⁻¹ :=
    inv_anti₀ h1 hle
  constructor
  · intro hp
    rw [div_eq_mul_inv, div_eq_mul_inv]
    exact mul_le_mul_of_nonneg_left hinv hp
  · intro hp
    rw [div_eq_mul_inv, div_eq_mul_inv]
    exact mul_le_mul_of_nonpos_left hinv hp

/-- C5, witness at raw scores `6` and `-6` and lengths 1 and 7. -/
theorem C5_witness :
    ((6 : ℚ) / length_penalty [0, 0, 0, 0, 0, 0, 0] ≤ (6 : ℚ) / length_penalty [0]) ∧
    ((-6 : ℚ) / length_penalty [0] ≤ (-6 : ℚ) / length_penalty [0, 0, 0, 0, 0, 0, 0]) :=
  ⟨(C5_norm_score_monotone 6 [0] [0, 0, 0, 0, 0, 0, 0] (by decide)).1 (by norm_num),
   (C5_norm_score_monotone (-6) [0] [0, 0, 0, 0, 0, 0, 0] (by decide)).2 (by norm_num)⟩

/-- C3: after the top-K selection of one expansion step the live beam holds
at most `K` hypotheses; the candidate pool built in that step has pairwise
distinct continuation-token keys; and every `predict` call (including the
seed step's) returns at most `K` continuations. -/
theorem C3_beam_invariant (d : Beam_Search_Decoder) (m : Model)
    (seq : List Nat) (i : Nat) (st : List Hyp × List Hyp) (ctx : List Nat) :
    ((d.stepBeam m seq i st).1).length ≤ d.beam_size ∧
    ((d.expandStep m seq i st.1).map Prod.fst).Nodup ∧
    (d.predict m seq ctx).length ≤ d.beam_size := by
  refine ⟨stepBeam_live_length d m seq i st, ?_, ?_⟩
  · rw [expandStep_eq_poolOfProposals]
    exact nodupKeys_poolOfProposals _ [] (by simp)
  · unfold Beam_Search_Decoder.predict topk
    exact List.length_take_le _ _

/-- C1: the candidate pool of one expansion step is keyed by continuation
token id only. A token proposed by nobody is absent; for a token proposed
by one or more parents the pool holds exactly one entry
`(parent buffer ++ [token], parentScore + continuationScore)`, coming from
one of the proposals for that token, whose combined score is
greatest among all proposals for that token. -/
theorem C1_pool_keeps_best_per_token (d : Beam_Search_Decoder) (m : Model)
    (seq : List Nat) (i : Nat) (hyps : List Hyp) (tok : Nat) :
    ((∀ e ∈ d.proposals m seq i hyps, e.2.1 ≠ tok) →
      dictGet? (d.expandStep m seq i hyps) tok = none) ∧
    (∀ e ∈ d.proposals m seq i hyps, e.2.1 = tok →
      ∃ e' ∈ d.proposals m seq i hyps, e'.2.1 = tok ∧
        dictGet? (d.expandStep m seq i hyps) tok = some (e'.1 ++ [tok], e'.2.2) ∧
        ∀ e'' ∈ d.proposals m seq i hyps, e''.2.1 = tok → e''.2.2 ≤ e'.2.2) := by
  rw [expandStep_eq_poolOfProposals]
  constructor
  · exact (poolOfProposals_get_none _ tok).2
  · intro e he hetok
    cases hget : dictGet? (poolOfProposals [] (d.proposals m seq i hyps)) tok with
    | none =>
      exact absurd hetok ((poolOfProposals_get_none _ tok).1 hget e he)
    | some v =>
      rcases poolOfProposals_get_some _ tok v.1 v.2 (by rw [hget]) with
        ⟨⟨e₀, he₀, he₀tok, hb₀, hs₀⟩, hmax⟩
      rw [hs₀] at hmax
      refine ⟨e₀, he₀, he₀tok, ?_, hmax⟩
      rw [← hb₀, ← hs₀]

/-- C1, witness: the §8 scenario. Two parents (score 0 each) both propose
token 3, with continuation scores `-1/10` and `-1/2`; the collapsed pool
retains only the `-1/10` entry, and that entry is maximal. -/
theorem C1_witness :
    dictGet? (beamTest.expandStep dupModel [] 2 dupParents) 3 =
      some ([0, 2, 3], -(1 / 10 : ℚ)) ∧
    ∃ e' ∈ beamTest.proposals dupModel [] 2 dupParents, e'.2.1 = 3 ∧
      dictGet? (beamTest.expandStep dupModel [] 2 dupParents) 3 =
        some (e'.1 ++ [3], e'.2.2) ∧
      ∀ e'' ∈ beamTest.proposals dupModel [] 2 dupParents, e''.2.1 = 3 →
        e''.2.2 ≤ e'.2.2 := by
  constructor
  · with_unfolding_all rfl
  · refine (C1_pool_keeps_best_per_token beamTest dupModel [] 2 dupParents 3).2
      ([0, 2], 3, -(1 / 10 : ℚ)) ?_ rfl
    have hprops : beamTest.proposals dupModel [] 2 dupParents =
        [([0, 2], 3, -(1 / 10 : ℚ)), ([0, 2], 2, -(1 / 5 : ℚ)),
         ([0, 3], 3, -(1 / 2 : ℚ)), ([0, 3], 2, -(3 / 5 : ℚ))] := by
      with_unfolding_all rfl
    rw [hprops]
    exact List.mem_cons_self _ _

/-- C4, counterexample: with `C = 1, L = 6, K = 1` and a model that always
ranks the end tag highest, the single seed hypothesis is finalized by the
first expansion iteration, leaving the live beam empty — yet the loop
executes all 4 iterations of its index range instead of terminating: the
`beam_size == 0` early exit tests the configured beam size (here 1), not
the live beam. The per-iteration model-call record `[1, 0, 0, 0]` shows
iterations 2-4 executed with an empty live beam. -/
theorem C4_counterexample :
    (beamK1L6.stepBeam endBestModel [2] 2 ([([0, 1], 0)], [])).1 = [] ∧
    beamK1L6.decodeIterInfo endBestModel ["cat"] = (4, [1, 0, 0, 0]) := by
  constructor <;> with_unfolding_all rfl

/-- C4, amended: the `beam_size == 0` check compares the configured beam
size, which no code path mutates, so whenever `K ≠ 0` the expansion loop
executes one iteration per index of its range regardless of the live beam;
an iteration entered with an empty live beam makes no Scoring Model call
(its recorded model-call count, the live-beam size, is 0) and leaves the
live beam and the finalized list unchanged. -/
theorem C4_empty_beam_iterations_are_noops (d : Beam_Search_Decoder)
    (m : Model) (seq : List Nat) (hK : d.beam_size ≠ 0) :
    (∀ (steps : List Nat) (st : List Hyp × List Hyp),
      (d.decodeLoopIters m seq steps st).2.1 = steps.length) ∧
    (∀ (i : Nat) (fin : List Hyp),
      d.stepBeam m seq i ([], fin) = ([], fin) ∧
      (d.decodeLoopIters m seq [i] ([], fin)).2.2 = [0]) := by
  constructor
  · intro steps
    induction steps with
    | nil => intro st; rfl
    | cons i rest ih =>
      intro st
      unfold Beam_Search_Decoder.decodeLoopIters
      simp [hK, ih]
  · intro i fin
    refine ⟨stepBeam_empty_live d m seq i fin, ?_⟩
    simp [Beam_Search_Decoder.decodeLoopIters, hK]

/-- C4, witness: the amended statement at the concrete run of the
counterexample (all 4 iterations execute; a step on an empty beam is a
no-op). -/
theorem C4_witness :
    (beamK1L6.decodeLoopIters endBestModel [2] (List.range' 2 4)
      ([([0, 1], 0)], [])).2.1 = 4 ∧
    beamK1L6.stepBeam endBestModel [2] 3 ([], [([0, 1, 1], 0)]) =
      ([], [([0, 1, 1], 0)]) := by
  constructor
  · have h := (C4_empty_beam_iterations_are_noops beamK1L6 endBestModel [2]
      (by decide)).1 (List.range' 2 4) ([([0, 1], 0)], [])
    simpa using h
  · exact ((C4_empty_beam_iterations_are_noops beamK1L6 endBestModel [2]
      (by decide)).2 3 [([0, 1, 1], 0)]).1

/-- C9: with configured beam size at least 1 and a nonempty vocabulary, the
merged hypothesis list (live beam then finalized list) at final selection
is never empty — the seed step creates at least one hypothesis and each
expansion step only moves hypotheses between the two lists — so the top-1
selection succeeds and `decode` returns a result instead of failing on an
empty list. -/
theorem C9_merged_nonempty (d : Beam_Search_Decoder) (m : Model)
    (sequence : List String) (hK : 1 ≤ d.beam_size) (hV : 1 ≤ m.V) :
    d.mergedHypotheses m sequence ≠ [] ∧
      ∃ ws, d.decode sequence m = some ws := by
  have hmerged : d.mergedHypotheses m sequence ≠ [] := by
    show (d.decodeLoop m (sequence.map d.word2idx)
        (List.range' (d.C + 1) (d.length + d.C - 1 - (d.C + 1)))
        (((d.predict m (sequence.map d.word2idx)
            (pySlice 0 d.C (List.replicate d.C (d.word2idx "<s>")))).map
          (fun tp => (List.replicate d.C (d.word2idx "<s>") ++ [tp.1], tp.2)),
          []) : List Hyp × List Hyp)).1 ++
      (d.decodeLoop m (sequence.map d.word2idx)
        (List.range' (d.C + 1) (d.length + d.C - 1 - (d.C + 1)))
        (((d.predict m (sequence.map d.word2idx)
            (pySlice 0 d.C (List.replicate d.C (d.word2idx "<s>")))).map
          (fun tp => (List.replicate d.C (d.word2idx "<s>") ++ [tp.1], tp.2)),
          []) : List Hyp × List Hyp)).2 ≠ []
    apply decodeLoop_invariant d m _ (fun st => st.1 ++ st.2 ≠ [])
      (fun i st h => stepBeam_merged_ne_nil d m _ i st hK hV h)
    simp only [List.append_nil]
    intro hnil
    exact predict_ne_nil d m _ _ hK hV (List.map_eq_nil_iff.1 hnil)
  refine ⟨hmerged, ?_⟩
  cases hsel : d.select_top (d.mergedHypotheses m sequence) 1 true with
  | nil => exact absurd hsel (select_top_ne_nil d _ 1 true hmerged le_rfl)
  | cons hp rest =>
    refine ⟨(hp.1.drop (d.C - 1)).map d.idx2word, ?_⟩
    unfold Beam_Search_Decoder.decode
    rw [hsel]

/-- C9, witness at the concrete `K = 2` decoder and end-tag-best model. -/
theorem C9_witness :
    beamTest.mergedHypotheses endBestModel ["cat"] ≠ [] ∧
      ∃ ws, beamTest.decode ["cat"] endBestModel = some ws :=
  C9_merged_nonempty beamTest endBestModel ["cat"] (by decide) (by decide)

/-- C2: when beam-search decode returns, it has merged the live beam into
the finalized list and returned the words (from buffer position `C-1` on)
of a merged hypothesis whose normalized score
`rawScore / ((5 + length)^1 / (5 + 1)^1)` is greatest among all merged
hypotheses. -/
theorem C2_final_selection (d : Beam_Search_Decoder) (m : Model)
    (sequence : List String) (ws : List String)
    (h : d.decode sequence m = some ws) :
    ∃ hp ∈ d.mergedHypotheses m sequence,
      ws = (hp.1.drop (d.C - 1)).map d.idx2word ∧
      ∀ e ∈ d.mergedHypotheses m sequence,
        e.2 / ((5 + (e.1.length : ℚ)) ^ 1 / (5 + 1 : ℚ) ^ 1) ≤
          hp.2 / ((5 + (hp.1.length : ℚ)) ^ 1 / (5 + 1 : ℚ) ^ 1) := by
  unfold Beam_Search_Decoder.decode at h
  cases hsel : d.select_top (d.mergedHypotheses m sequence) 1 true with
  | nil => rw [hsel] at h; cases h
  | cons hp0 rest =>
    rw [hsel] at h
    have hws : ws = (hp0.1.drop (d.C - 1)).map d.idx2word :=
      (Option.some.inj h).symm
    rcases select_top_final_head d _ hp0 rest hsel with ⟨⟨e, he, hpe⟩, hmax⟩
    refine ⟨e, he, ?_, ?_⟩
    · rw [hws, hpe]
    · intro e' he'
      have h' := hmax e' he'
      rw [hpe] at h'
      simp only [length_penalty] at h'
      exact h'

/-- C2, witness at the concrete `K = 2` decoder: the returned hypothesis
maximizes the normalized score over the two merged hypotheses. -/
theorem C2_witness :
    ∃ hp ∈ beamTest.mergedHypotheses endBestModel ["cat"],
      ["<s>", "</s>", "</s>"] = (hp.1.drop (beamTest.C - 1)).map beamTest.idx2word ∧
      ∀ e ∈ beamTest.mergedHypotheses endBestModel ["cat"],
        e.2 / ((5 + (e.1.length : ℚ)) ^ 1 / (5 + 1 : ℚ) ^ 1) ≤
          hp.2 / ((5 + (hp.1.length : ℚ)) ^ 1 / (5 + 1 : ℚ) ^ 1) :=
  C2_final_selection beamTest endBestModel ["cat"] ["<s>", "</s>", "</s>"]
    (by with_unfolding_all rfl)

/-- C6: the greedy decoder's returned word sequence has length at most `L`;
every hypothesis buffer reaching beam-search final selection (in
particular the selected one, before trimming) has length at most `L + C`. -/
theorem C6_length_bounds :
    (∀ (d : Greedy_Decoder) (m : Model) (sequence : List String)
      (ws : List String), 1 ≤ d.C → 1 ≤ d.length →
      d.decode sequence m = some ws → ws.length ≤ d.length) ∧
    (∀ (d : Beam_Search_Decoder) (m : Model) (sequence : List String)
      (e : Hyp), 1 ≤ d.length → e ∈ d.mergedHypotheses m sequence →
      e.1.length ≤ d.length + d.C) := by
  constructor
  · intro d m sequence ws hC hL h
    simp only [Greedy_Decoder.decode] at h
    rcases Option.map_eq_some'.1 h with ⟨s, hs, hws⟩
    have hlen := greedy_decodeLoop_length d m (sequence.map d.word2idx)
      (List.range' d.C (d.length + d.C - 1 - d.C))
      (List.replicate d.C (d.word2idx "<s>")) s hs
    rw [List.length_range', List.length_replicate] at hlen
    rw [← hws]
    simp only [List.length_map, List.length_drop]
    omega
  · intro d m sequence e hL he
    have h := mergedHypotheses_length_bound d m sequence e he
    omega

/-- C6, witness: concrete greedy output of length 2 ≤ L = 3, and a concrete
merged beam hypothesis of buffer length 3 ≤ L + C = 4. -/
theorem C6_witness :
    (["<s>", "</s>"] : List String).length ≤ greedyTest.length ∧
    ([0, 1, 1] : List Nat).length ≤ beamTest.length + beamTest.C := by
  constructor
  · exact C6_length_bounds.1 greedyTest endBestModel ["cat"] ["<s>", "</s>"]
      (by decide) (by decide) (by with_unfolding_all rfl)
  · refine C6_length_bounds.2 beamTest endBestModel ["cat"] ([0, 1, 1], 0)
      (by decide) ?_
    have hm : beamTest.mergedHypotheses endBestModel ["cat"] =
        [([0, 1, 1], 0), ([0, 1, 0], -1)] := by with_unfolding_all rfl
    rw [hm]
    exact List.mem_cons_self _ _

/-- C10: whenever either decoder returns (with `C ≥ 1` and a vocabulary
whose start tag round-trips), the first returned word is `<s>`: the buffer
starts with `C` start tags, only appends are performed, and the output is
taken from buffer index `C - 1` on, keeping exactly one start tag. -/
theorem C10_output_starts_with_start_tag :
    (∀ (d : Greedy_Decoder) (m : Model) (sequence : List String)
      (ws : List String), 1 ≤ d.C →
      d.idx2word (d.word2idx "<s>") = "<s>" →
      d.decode sequence m = some ws → ws.head? = some "<s>") ∧
    (∀ (d : Beam_Search_Decoder) (m : Model) (sequence : List String)
      (ws : List String), 1 ≤ d.C →
      d.idx2word (d.word2idx "<s>") = "<s>" →
      d.decode sequence m = some ws → ws.head? = some "<s>") := by
  constructor
  · intro d m sequence ws hC hrt h
    simp only [Greedy_Decoder.decode] at h
    rcases Option.map_eq_some'.1 h with ⟨s, hs, hws⟩
    have hP := greedy_decodeLoop_invariant d m (sequence.map d.word2idx)
      (fun s => ∃ r, s = List.replicate d.C (d.word2idx "<s>") ++ r)
      (fun s t hst => hst.elim fun r hr =>
        ⟨r ++ [t], by rw [hr, List.append_assoc]⟩)
      (List.range' d.C (d.length + d.C - 1 - d.C))
      (List.replicate d.C (d.word2idx "<s>")) s ⟨[], by simp⟩ hs
    rcases hP with ⟨r, hr⟩
    rw [← hws, hr, drop_pred_replicate_append d.C hC]
    simp [hrt]
  · intro d m sequence ws hC hrt h
    unfold Beam_Search_Decoder.decode at h
    cases hsel : d.select_top (d.mergedHypotheses m sequence) 1 true with
    | nil => rw [hsel] at h; cases h
    | cons hp0 rest =>
      rw [hsel] at h
      have hws : ws = (hp0.1.drop (d.C - 1)).map d.idx2word :=
        (Option.some.inj h).symm
      rcases (select_top_final_head d _ hp0 rest hsel).1 with ⟨e, he, hpe⟩
      have hP := mergedHypotheses_buffer_invariant d m sequence
        (fun b => ∃ r, b = List.replicate d.C (d.word2idx "<s>") ++ r)
        (fun t => ⟨[t], rfl⟩)
        (fun b t hb => hb.elim fun r hr =>
          ⟨r ++ [t], by rw [hr, List.append_assoc]⟩)
        e he
      rcases hP with ⟨r, hr⟩
      have h1 : hp0.1 = List.replicate d.C (d.word2idx "<s>") ++ r := by
        rw [hpe]; exact hr
      rw [hws, h1, drop_pred_replicate_append d.C hC]
      simp [hrt]

/-- C10, witness: both concrete decodes start with `<s>`. -/
theorem C10_witness :
    (["<s>", "</s>"] : List String).head? = some "<s>" ∧
    (["<s>", "</s>", "</s>"] : List String).head? = some "<s>" :=
  ⟨C10_output_starts_with_start_tag.1 greedyTest endBestModel ["cat"]
      ["<s>", "</s>"] (by decide) (by decide) (by with_unfolding_all rfl),
   C10_output_starts_with_start_tag.2 beamTest endBestModel ["cat"]
      ["<s>", "</s>", "</s>"] (by decide) (by decide)
      (by with_unfolding_all rfl)⟩

/-- C7: if the Scoring Model ranks the end-tag id strictly highest for
every context window, greedy decode appends exactly one generated token
(the end tag) after the `C` start-tag positions and stops after the first
loop iteration: the output is `<s>` followed by `</s>`. -/
theorem C7_greedy_stops_after_one_token (d : Greedy_Decoder) (m : Model)
    (sequence : List String) (hC : 1 ≤ d.C) (hL : 2 ≤ d.length)
    (hV : d.word2idx "</s>" < m.V)
    (hTop : ∀ (ctx : List Nat) (t : Nat), t < m.V → t ≠ d.word2idx "</s>" →
      m.score (sequence.map d.word2idx) ctx t <
        m.score (sequence.map d.word2idx) ctx (d.word2idx "</s>")) :
    d.decode sequence m =
      some [d.idx2word (d.word2idx "<s>"), d.idx2word (d.word2idx "</s>")] := by
  obtain ⟨n, hn⟩ : ∃ n, d.length + d.C - 1 - d.C = n + 1 :=
    ⟨d.length - 2, by omega⟩
  show (d.decodeLoop m (sequence.map d.word2idx)
      (List.range' d.C (d.length + d.C - 1 - d.C))
      (List.replicate d.C (d.word2idx "<s>"))).map
      (fun s => (s.drop (d.C - 1)).map d.idx2word) =
    some [d.idx2word (d.word2idx "<s>"), d.idx2word (d.word2idx "</s>")]
  rw [hn, List.range'_succ]
  have hctx : pySlice (d.C - d.C) d.C (List.replicate d.C (d.word2idx "<s>")) =
      List.replicate d.C (d.word2idx "<s>") := by
    simp [pySlice, Nat.sub_self, List.take_replicate]
  rcases topk_head_of_strict_max m (sequence.map d.word2idx)
      (List.replicate d.C (d.word2idx "<s>")) 2 (d.word2idx "</s>")
      (by omega) hV (fun t ht hne => hTop _ t ht hne) with ⟨tl, htk⟩
  have hfw : d.find_next_word (List.replicate d.C (d.word2idx "<s>")) d.C m
      (sequence.map d.word2idx) =
      some (List.replicate d.C (d.word2idx "<s>") ++ [d.word2idx "</s>"]) := by
    unfold Greedy_Decoder.find_next_word
    rw [hctx, htk]
  have hmem : d.word2idx "</s>" ∈
      List.replicate d.C (d.word2idx "<s>") ++ [d.word2idx "</s>"] := by simp
  have hloop : d.decodeLoop m (sequence.map d.word2idx)
      (d.C :: List.range' (d.C + 1) n) (List.replicate d.C (d.word2idx "<s>")) =
      some (List.replicate d.C (d.word2idx "<s>") ++ [d.word2idx "</s>"]) := by
    unfold Greedy_Decoder.decodeLoop
    rw [hfw]
    have h' : (if d.word2idx "</s>" ∈
          List.replicate d.C (d.word2idx "<s>") ++ [d.word2idx "</s>"] then
        some (List.replicate d.C (d.word2idx "<s>") ++ [d.word2idx "</s>"])
      else d.decodeLoop m (sequence.map d.word2idx) (List.range' (d.C + 1) n)
        (List.replicate d.C (d.word2idx "<s>") ++ [d.word2idx "</s>"])) =
        some (List.replicate d.C (d.word2idx "<s>") ++ [d.word2idx "</s>"]) :=
      if_pos hmem
    exact h'
  rw [hloop, Option.map_some', drop_pred_replicate_append d.C hC]
  rfl

/-- C7, witness at `C = 1, L = 3` with the end-tag-best model: the output
is exactly `[<s>, </s>]`, one generated token. -/
theorem C7_witness :
    greedyTest.decode ["cat"] endBestModel = some ["<s>", "</s>"] :=
  C7_greedy_stops_after_one_token greedyTest endBestModel ["cat"]
    (by decide) (by decide) (by decide)
    (fun ctx t ht hne => by
      have hne1 : t ≠ 1 := hne
      have h0 : endBestModel.score (["cat"].map greedyTest.word2idx) ctx
          (greedyTest.word2idx "</s>") = 0 := rfl
      have h1 : endBestModel.score (["cat"].map greedyTest.word2idx) ctx t =
          -(1 : ℚ) - t := by
        simp [endBestModel, hne1]
      rw [h0, h1]
      have ht0 : (0 : ℚ) ≤ (t : ℚ) := Nat.cast_nonneg t
      linarith)

end FFNN
